import Mathlib

/-!
Shallow embedding of the aider CLI orchestration layer
(`aider/commands.py`, `aider/coders/plan_coder.py`, `aider/jira.py`,
`aider/repo.py`, `aider/plan_executor.py`).

LLM sessions, the filesystem and the network are modelled as explicit
oracle parameters; the control flow, string manipulation and set
bookkeeping are translated directly from the Python source.
-/

namespace Aider

/-! ## Python string primitives

ASCII models of the Python `str` operations used by the code under
verification (`str.strip`, `str.lower`, `int(...)` coercion). -/

/-- The characters Python treats as whitespace for `str.strip()` and
`\s` in regular expressions (ASCII fragment). -/
def pyIsSpace (c : Char) : Bool :=
  c = ' ' || c = '\t' || c = '\n' || c = '\x0d' || c = '\x0b' || c = '\x0c'

/-- Model of `str.strip()`: remove leading and trailing whitespace. -/
def pyStrip (s : String) : String :=
  ⟨(s.data.dropWhile pyIsSpace).reverse.dropWhile pyIsSpace |>.reverse⟩

/-- Model of `str.lower()` (ASCII fragment). -/
def pyLower (s : String) : String :=
  ⟨s.data.map Char.toLower⟩

/-- Validity of the digit body accepted by Python `int(...)`:
digits with single underscores strictly between digits. -/
def pyDigitsOk : List Char → Bool
  | [] => false
  | [c] => c.isDigit
  | c :: c2 :: rest =>
      c.isDigit && (if c2 = '_' then pyDigitsOk rest else pyDigitsOk (c2 :: rest))

/-- Numeric value of a digit string (underscores removed beforehand). -/
def digitsToNat (cs : List Char) : Nat :=
  cs.foldl (fun acc c => 10 * acc + (c.toNat - '0'.toNat)) 0

/-- Python `int(s)` on a string: strip whitespace, optional sign, then a
digit body; `none` models the `ValueError` raised on anything else. -/
def pyInt (s : String) : Option Int :=
  let cs := (pyStrip s).data
  match cs with
  | '+' :: rest => if pyDigitsOk rest then some (digitsToNat (rest.filter (· ≠ '_'))) else none
  | '-' :: rest => if pyDigitsOk rest then some (-(digitsToNat (rest.filter (· ≠ '_')) : Int)) else none
  | rest => if pyDigitsOk rest then some (digitsToNat (rest.filter (· ≠ '_'))) else none

/-- Model of `pathlib.Path(p).name`: the final path component (trailing slashes
ignored). -/
def pathName (p : String) : String :=
  ⟨((p.data.reverse.dropWhile (· = '/')).takeWhile (· ≠ '/')).reverse⟩

/-! ## `Commands.cmd_clean_code` intensity parsing (commands.py) -/

/-- The intensity-selection prelude of `Commands.cmd_clean_code`:
returns the intensity actually used and whether a warning was emitted.
Translated from
`intensity = args.strip().lower() if args.strip() else "medium"` and the
membership check against `["low", "medium", "high"]`. -/
def cmd_clean_code_intensity (args : String) : String × Bool :=
  let intensity := if pyStrip args ≠ "" then pyLower (pyStrip args) else "medium"
  if intensity = "low" ∨ intensity = "medium" ∨ intensity = "high" then
    (intensity, false)
  else
    ("medium", true)

/-! ## `get_step_prompt` and the `cmd_code_from_plan` loops (commands.py) -/

/-- Translation of `get_step_prompt(step_number, plan_path)` from commands.py,
including its typos, with `Path(plan_path).name` as the file name. -/
def get_step_prompt (step_number : Nat) (plan_path : String) : String :=
  "Implement only step " ++ toString step_number ++ " of the plan in in the .md file "
    ++ pathName plan_path
    ++ ". Add any files, you require to implement this step, to this chat. If adding code to an"
    ++ " existing file, follow the coding style in that file.Once step " ++ toString step_number
    ++ " is implemented, stop execution."

/-- Prompts issued by the main loop of `cmd_code_from_plan`
(`for i in range(1, step_count + 1): prompt = get_step_prompt(i, plan_path)`). -/
def code_from_plan_main_prompts (step_count : Nat) (plan_path : String) : List String :=
  (List.range' 1 step_count).map (fun i => get_step_prompt i plan_path)

/-- Prompts issued by the exception-recovery loop of `cmd_code_from_plan`:
`for j in range(i, step_count + 1): prompt = get_step_prompt(i, plan_path)`.
Note the source builds every retry prompt from `i` (the failed step),
not from the loop variable `j`. -/
def code_from_plan_retry_prompts (i step_count : Nat) (plan_path : String) : List String :=
  (List.range' i (step_count + 1 - i)).map (fun _j => get_step_prompt i plan_path)

/-! ## Jira adapter (jira.py) -/

/-- Python truthiness of an optional string (`None` and `""` are falsy). -/
def pyTruthy : Option String → Bool
  | none => false
  | some s => s ≠ ""

/-- Python `a or b` over optional strings, as used in
`jira_server_url or os.environ.get("JIRA_SERVER_URL")`. -/
def pyOr (a b : Option String) : Option String :=
  if pyTruthy a then a else b

/-- The state built by a successful `Jira.__init__`. -/
structure JiraConfig where
  base_url : String
  email : String
  api_token : String
  v2_endpoint : String
  deriving Repr, DecidableEq

/-- Translation of `Jira.__init__`: resolve each credential as parameter-or-environment,
raise `ValueError` unless all three resolve to truthy values, then build
the basic-auth pair and REST endpoints. -/
def jiraInit (jira_server_url jira_email jira_api_token : Option String)
    (env : String → Option String) : Except String JiraConfig :=
  if pyTruthy (pyOr jira_server_url (env "JIRA_SERVER_URL")) ∧
      pyTruthy (pyOr jira_email (env "JIRA_EMAIL")) ∧
      pyTruthy (pyOr jira_api_token (env "JIRA_API_TOKEN")) then
    Except.ok
      { base_url := (pyOr jira_server_url (env "JIRA_SERVER_URL")).getD ""
        email := (pyOr jira_email (env "JIRA_EMAIL")).getD ""
        api_token := (pyOr jira_api_token (env "JIRA_API_TOKEN")).getD ""
        v2_endpoint := ((pyOr jira_server_url (env "JIRA_SERVER_URL")).getD "" ++ "/rest/api") ++ "/2" }
  else
    Except.error
      "Jira configuration is incomplete. Please provide the following either as parameters or environment variables: JIRA_SERVER_URL, JIRA_EMAIL, JIRA_API_TOKEN"

/-- The HTTP request assembled by `Jira._make_request` before it is sent. -/
structure HttpRequest where
  method : String
  url : String
  auth : String × String
  deriving Repr, DecidableEq

/-- The methods `Jira._make_request` accepts. -/
def jiraValidMethods : List String := ["GET", "PUT", "POST", "DELETE"]

/-- Translation of `Jira._make_request`: reject invalid methods, otherwise build the
request against `v2_endpoint + request_url` authenticated with
`HTTPBasicAuth(self.email, self.api_token)`. -/
def jiraMakeRequest (cfg : JiraConfig) (method request_url : String) :
    Except String HttpRequest :=
  if method ∈ jiraValidMethods then
    Except.ok
      { method := method
        url := cfg.v2_endpoint ++ request_url
        auth := (cfg.email, cfg.api_token) }
  else
    Except.error ("Invalid method requested: " ++ method ++ ".")

/-! ## `GitRepo.commit` environment handling (repo.py) -/

/-- An environment as a partial map from variable names to values. -/
def EnvMap := String → Option String

/-- Model of `os.environ[k] = v`. -/
def setEnv (env : EnvMap) (k v : String) : EnvMap :=
  fun k2 => if k2 = k then some v else env k2

/-- Model of `del os.environ[k]` (the source only deletes keys it just set). -/
def delEnv (env : EnvMap) (k : String) : EnvMap :=
  fun k2 => if k2 = k then none else env k2

/-- How far `GitRepo.commit` got: an early `return` before touching the
environment, or the `try` block ending in success, a caught git error,
or an uncaught exception (the `finally` clause runs in all three). -/
inductive CommitOutcome
  | earlyReturn
  | success
  | gitError
  | otherError

/-- The environment manipulation of `GitRepo.commit`: save
`GIT_COMMITTER_NAME` / `GIT_AUTHOR_NAME`, overwrite them according to the
attribution flags, run the commit, and restore or delete them in the
`finally` clause. Returns the environment after the call. -/
def gitRepoCommitEnv (attribute_committer attribute_author aider_edits : Bool)
    (committer_name : String) (outcome : CommitOutcome) (env : EnvMap) : EnvMap :=
  match outcome with
  | CommitOutcome.earlyReturn => env
  | _ =>
    let original_committer_name_env := env "GIT_COMMITTER_NAME"
    let env1 := if attribute_committer then setEnv env "GIT_COMMITTER_NAME" committer_name else env
    let original_author_name_env := env1 "GIT_AUTHOR_NAME"
    let env2 :=
      if aider_edits && attribute_author then setEnv env1 "GIT_AUTHOR_NAME" committer_name
      else env1
    -- try: self.repo.git.commit(cmd) ... finally:
    let env3 :=
      if attribute_committer then
        match original_committer_name_env with
        | some v => setEnv env2 "GIT_COMMITTER_NAME" v
        | none => delEnv env2 "GIT_COMMITTER_NAME"
      else env2
    let env4 :=
      if aider_edits && attribute_author then
        match original_author_name_env with
        | some v => setEnv env3 "GIT_AUTHOR_NAME" v
        | none => delEnv env3 "GIT_AUTHOR_NAME"
      else env3
    env4

/-! ## `PlanCoder.identify_affected_files` (coders/plan_coder.py)

A `ContextCoder` session is modelled by an oracle
`ctx : String → Finset String` giving, for the message sent to the
session, the set of relative file names the session collected
(`{context_coder.get_rel_fname(fname) for fname in context_coder.abs_fnames}`).
Each call to `PlanCoder.ask_context_coder` creates a fresh `ContextCoder`,
so sessions are independent and depend only on their message. -/

/-- The message `PlanCoder.files_in_step` sends for one step
(typos of the source preserved). -/
def files_in_step_message (initial_plan : String) (step_num : Nat) : String :=
  "For step " ++ toString step_num
    ++ " of the implementation plan below, identify all files that will"
    ++ " need to be modified or created. List only the file paths, one per"
    ++ " line:\n\n" ++ initial_plan

/-- The fallback message of `PlanCoder.identify_affected_files` when the
step count cannot be determined. -/
def fallback_files_message (initial_plan : String) : String :=
  "Please, detetermine the specific files that would need editing to implement the plan below:\n\n"
    ++ initial_plan

/-- Translation of `PlanCoder.files_in_step`: run a fresh `ContextCoder` session on the
step-scoped message and return its collected relative paths as a list
(`list(step_files)`; the set-to-list iteration is modelled as sorted). -/
def files_in_step (ctx : String → Finset String) (initial_plan : String) (step_num : Nat) :
    List String :=
  (ctx (files_in_step_message initial_plan step_num)).sort (· ≤ ·)

/-- The per-step dictionary built by the loop
`for step_num in range(1, num_steps + 1): all_identified_files[f"Step {step_num}"] = ...`,
as an insertion-ordered association list. -/
def steps_dict (ctx : String → Finset String) (initial_plan : String) :
    Nat → List (String × List String)
  | 0 => []
  | n + 1 =>
      steps_dict ctx initial_plan n
        ++ [("Step " ++ toString (n + 1), files_in_step ctx initial_plan (n + 1))]

/-- Result of `PlanCoder.identify_affected_files`: either a per-step
dictionary or the whole-plan fallback set of relative paths. -/
inductive AffectedFiles
  | perStep : List (String × List String) → AffectedFiles
  | wholePlan : Finset String → AffectedFiles
  deriving DecidableEq

/-- Translation of `PlanCoder.identify_affected_files`: coerce the LLM's step-count
response with `int(...)`; raise `ValueError` when it is ≤ 0; on either
failure warn and fall back to one whole-plan file-discovery session.
`step_count_response` is the LLM's reply to the step-count question;
the second component records whether `tool_warning` was called. -/
def identify_affected_files (ctx : String → Finset String)
    (step_count_response : String) (initial_plan : String) : AffectedFiles × Bool :=
  match pyInt step_count_response with
  | some num_steps =>
      if num_steps ≤ 0 then
        (AffectedFiles.wholePlan (ctx (fallback_files_message initial_plan)), true)
      else
        (AffectedFiles.perStep (steps_dict ctx initial_plan num_steps.toNat), false)
  | none => (AffectedFiles.wholePlan (ctx (fallback_files_message initial_plan)), true)

/-! ## `PlanExecutor` (plan_executor.py)

`parse_plan` matches `r'##\s*Step\s*(\d+):\s*(.*?)(?=##|\Z)'` with
`re.DOTALL` via `re.finditer`, then extracts a title with
`r'##\s*Step\s*\d+:\s*(.*?)(?=\n|\Z)'` and sorts the steps by index.
The regular expressions are embedded as direct character scanners:
matches start at `##`, the lazy group ends at the next `##` or at the
end of input, and `finditer` scans left to right without overlap. -/

/-- Model of `str.strip()` on a character list. -/
def pyStripChars (cs : List Char) : List Char :=
  ((cs.dropWhile pyIsSpace).reverse.dropWhile pyIsSpace).reverse

/-- Try to match `##\s*Step\s*(\d+):` at the head of the input; on
success return the parsed step number and the input after the colon. -/
def matchStepHeader : List Char → Option (Nat × List Char)
  | '#' :: '#' :: rest =>
      match rest.dropWhile pyIsSpace with
      | 'S' :: 't' :: 'e' :: 'p' :: r2 =>
          let r3 := r2.dropWhile pyIsSpace
          let ds := r3.takeWhile Char.isDigit
          let r4 := r3.dropWhile Char.isDigit
          if ds = [] then none
          else
            match r4 with
            | ':' :: r5 => some (digitsToNat ds, r5)
            | _ => none
      | _ => none
  | _ => none

/-- Split the input at the first occurrence of `##` (the end of the lazy
group `(.*?)(?=##|\Z)` under `re.DOTALL`): the first component is what
the group matches, the second starts at `##` or is empty. -/
def splitAtHashHash : List Char → List Char × List Char
  | [] => ([], [])
  | '#' :: '#' :: rest => ([], '#' :: '#' :: rest)
  | c :: rest =>
      let p := splitAtHashHash rest
      (c :: p.1, p.2)

/-- Model of `re.finditer` over the step pattern: at each position try the header;
on a match, the whole match runs to the next `##` or the end of input and
scanning resumes there; otherwise advance one character. The fuel
argument strictly exceeds the input length, which bounds the number of
scanning moves. Returns `(step index, full match)` pairs in text order. -/
def scanSteps : Nat → List Char → List (Nat × List Char)
  | 0, _ => []
  | _ + 1, [] => []
  | fuel + 1, c :: rest =>
      match matchStepHeader (c :: rest) with
      | some (n, after) =>
          let bp := splitAtHashHash after
          let headerLen := (c :: rest).length - after.length
          let block := (c :: rest).take (headerLen + bp.1.length)
          (n, block) :: scanSteps fuel bp.2
      | none => scanSteps fuel rest

/-- One parsed step of a plan (`PlanStep` dataclass). -/
structure PlanStep where
  title : String
  description : String
  index : Nat
  deriving Repr, DecidableEq

/-- Title and description extraction from one full match: re-match the
header, skip whitespace, take the rest of the line as the title, and
strip the remainder as the description; the source falls back to
`"Untitled Step"` when the inner pattern does not match. -/
def stepTitleDesc (block : List Char) : String × String :=
  match matchStepHeader block with
  | some p =>
      let r := p.2.dropWhile pyIsSpace
      let titleRaw := r.takeWhile (fun c => c ≠ '\n')
      let rest := r.drop titleRaw.length
      (⟨pyStripChars titleRaw⟩, ⟨pyStripChars rest⟩)
  | none => ("Untitled Step", ⟨block⟩)

/-- The steps of `PlanExecutor.parse_plan` in text order, before sorting. -/
def raw_plan_steps (content : String) : List PlanStep :=
  (scanSteps (content.data.length + 1) content.data).map
    (fun p =>
      let td := stepTitleDesc p.2
      { title := td.1, description := td.2, index := p.1 })

/-- Stable insertion of a step into an index-sorted list (the step goes
before existing steps with an equal index, matching Python's stable
`sorted`). -/
def insertStep (s : PlanStep) : List PlanStep → List PlanStep
  | [] => [s]
  | t :: ts => if t.index < s.index then t :: insertStep s ts else s :: t :: ts

/-- Model of `sorted(steps, key=lambda s: s.index)`. -/
def sortSteps : List PlanStep → List PlanStep
  | [] => []
  | s :: rest => insertStep s (sortSteps rest)

/-- Translation of `PlanExecutor.parse_plan` on the plan file's content. -/
def parse_plan (content : String) : List PlanStep :=
  sortSteps (raw_plan_steps content)

/-- Observable outcome of `PlanExecutor.execute_plan`: the error message
surfaced via `tool_error`, if any, and the prompts sent to the LLM in
order. -/
structure ExecPlanResult where
  errorMsg : Option String
  prompts : List String
  deriving Repr, DecidableEq

/-- The per-step prompt of `PlanExecutor.execute_plan`. -/
def step_exec_prompt (s : PlanStep) : String :=
  "I\x27m implementing a plan step by step. Please help me with step "
    ++ toString s.index ++ ":\n\n" ++ s.title ++ "\n\n" ++ s.description
    ++ "\n\nImplement just this step now."

/-- The execution loop of `execute_plan`: every step after the first asks
for confirmation (`confirm` is the `io.confirm_ask` oracle on the exact
question string) and a refusal pauses the run. -/
def run_plan_steps (confirm : String → Bool) : Nat → List PlanStep → List String
  | _, [] => []
  | i, s :: rest =>
      if 0 < i ∧ ¬ confirm ("Continue with step " ++ toString (i + 1) ++ ": " ++ s.title ++ "?") then
        []
      else
        step_exec_prompt s :: run_plan_steps confirm (i + 1) rest

/-- Translation of `PlanExecutor.execute_plan`: parse, report an error (and send no
prompt) when no step matched, otherwise run the steps. -/
def execute_plan (content : String) (confirm : String → Bool) : ExecPlanResult :=
  let steps := parse_plan content
  if steps = [] then
    { errorMsg := some "No steps found in the plan file.", prompts := [] }
  else
    { errorMsg := none, prompts := run_plan_steps confirm 0 steps }

/-! ## Chat-session file bookkeeping (commands.py)

The session state is the pair of absolute-path sets
`coder.abs_fnames` (editable) and `coder.abs_read_only_fnames`
(read-only), plus `Commands.original_read_only_fnames`. The filesystem,
git metadata, globbing and path normalisation (`coder.get_rel_fname`,
`coder.abs_root_path`, both outside src/) are oracle fields of `World`;
the command control flow is translated from commands.py. -/

/-- Filesystem, repository and path oracles for the command handlers.
`relOf` models `coder.get_rel_fname`, `absRoot` models
`coder.abs_root_path` (modelled from the spec: both live in
`base_coder.py`, which is not under src/). -/
structure World where
  root : String
  fileExists : String → Bool
  isFile : String → Bool
  isDir : String → Bool
  aiderIgnored : String → Bool
  gitIgnored : String → Bool
  pathInRepo : String → Bool
  readable : String → Bool
  isImage : String → Bool
  supportsVision : Bool
  hasRepo : Bool
  relOf : String → String
  absRoot : String → String
  globRepo : String → List String
  globAbs : String → List String
  globRoot : String → List String
  confirmCreate : String → Bool
  sameFile : String → String → Bool
  absPath : String → String
  walkFiles : String → List String
  underRoot : String → Bool

/-- The file sets of a chat session. -/
structure ChatState where
  abs_fnames : Finset String
  abs_read_only_fnames : Finset String
  original_read_only_fnames : Finset String
  deriving DecidableEq

/-- Whether the first character list leads the second. -/
def listLeading : List Char → List Char → Bool
  | [], _ => true
  | _ :: _, [] => false
  | c :: cs, d :: ds => c = d && listLeading cs ds

/-- Model of `str.startswith(p)` via character lists. -/
def pyStartsWith (p s : String) : Bool :=
  listLeading p.data s.data

/-- Substring search over character lists. -/
def pyInChars : List Char → List Char → Bool
  | needle, [] => needle.isEmpty
  | needle, c :: rest => listLeading needle (c :: rest) || pyInChars needle rest

/-- Python `needle in hay` on strings (substring test). -/
def pyInStr (needle hay : String) : Bool :=
  pyInChars needle.data hay.data

/-- Model of `os.path.isabs` and `Path.is_absolute` on POSIX. -/
def isAbsolute (p : String) : Bool := pyStartsWith "/" p

/-- Model of `Path(root) / word`. -/
def joinPath (a b : String) : String := a ++ "/" ++ b

/-- Model of `any(c in word for c in "*?[]")`. -/
def hasGlobChar (s : String) : Bool :=
  s.data.any (fun c => c = '*' ∨ c = '?' ∨ c = '[' ∨ c = ']')

/-- Model of `"*" in str(fname) or "?" in str(fname)`. -/
def hasStarOrQuestion (s : String) : Bool :=
  s.data.any (fun c => c = '*' ∨ c = '?')

/-- Model of `re.sub(r"([\*\?\[\]])", r"[\1]", word)`: escape glob special
characters of an existing directory name. -/
def escapeGlobChars (s : String) : String :=
  ⟨s.data.foldr
    (fun c acc => if c = '*' ∨ c = '?' ∨ c = '[' ∨ c = ']' then '[' :: c :: ']' :: acc else c :: acc)
    []⟩

/-- Insertion of a string into a `≤`-sorted list. -/
def insertSortedStr (s : String) : List String → List String
  | [] => [s]
  | t :: ts => if t ≤ s then t :: insertSortedStr s ts else s :: t :: ts

/-- Python `sorted` over a list of strings. -/
def sortStrings : List String → List String
  | [] => []
  | s :: rest => insertSortedStr s (sortStrings rest)

/-- The path `cmd_add` resolves one word to:
`Path(word)` if absolute, else `Path(self.coder.root) / word`. -/
def cmd_add_fname (w : World) (word : String) : String :=
  if isAbsolute word then word else joinPath w.root word

/-- The first loop of `Commands.cmd_add` for a single word: collect the
matched files (skip ignored paths, accept an existing regular file,
otherwise glob, reject unmatched wildcards and directories not in git,
finally offer to create the file). -/
def cmd_add_matches (w : World) (word : String) : List String :=
  let fname := cmd_add_fname w word
  if w.hasRepo ∧ w.aiderIgnored fname then []
  else
    let isExistingFile := w.fileExists fname ∧ w.isFile fname
    if isExistingFile then [fname]
    else
      let word2 :=
        if w.fileExists fname ∧ ¬ w.isFile fname then escapeGlobChars word else word
      let matched_files := w.globRepo word2
      if matched_files ≠ [] then matched_files
      else if hasStarOrQuestion fname then []
      else if w.fileExists fname ∧ w.isDir fname ∧ w.hasRepo then []
      else if w.confirmCreate word then [fname] else []

/-- The second loop of `Commands.cmd_add` for one matched file: the
chain of root / gitignore / already-editable / read-only-promotion /
image / readability checks that updates the two file sets. -/
def cmd_add_process (w : World) (st : ChatState) (matched_file : String) : ChatState :=
  let abs_file_path := w.absRoot matched_file
  if ¬ pyStartsWith w.root abs_file_path ∧ ¬ w.isImage matched_file then st
  else if w.hasRepo ∧ w.gitIgnored matched_file then st
  else if abs_file_path ∈ st.abs_fnames then st
  else if abs_file_path ∈ st.abs_read_only_fnames then
    if w.hasRepo ∧ w.pathInRepo matched_file then
      { st with
        abs_fnames := insert abs_file_path st.abs_fnames
        abs_read_only_fnames := st.abs_read_only_fnames.erase abs_file_path }
    else st
  else if w.isImage matched_file ∧ ¬ w.supportsVision then st
  else if w.readable abs_file_path then
    { st with abs_fnames := insert abs_file_path st.abs_fnames }
  else st

/-- Translation of `Commands.cmd_add` on a single word (the saved session files issue
one file per `/add` line). -/
def cmd_add_word (w : World) (st : ChatState) (word : String) : ChatState :=
  (sortStrings (cmd_add_matches w word)).foldl (cmd_add_process w) st

/-- Path collection of `Commands.cmd_read_only` for one pattern. -/
def cmd_read_only_matches (w : World) (word : String) : List String :=
  if isAbsolute word then w.globAbs word else w.globRoot word

/-- Translation of `Commands._add_read_only_file`. -/
def add_read_only_file (w : World) (st : ChatState) (abs_path original_name : String) :
    ChatState :=
  if w.isImage original_name ∧ ¬ w.supportsVision then st
  else if abs_path ∈ st.abs_read_only_fnames then st
  else if abs_path ∈ st.abs_fnames then
    { st with
      abs_fnames := st.abs_fnames.erase abs_path
      abs_read_only_fnames := insert abs_path st.abs_read_only_fnames }
  else { st with abs_read_only_fnames := insert abs_path st.abs_read_only_fnames }

/-- Translation of `Commands._add_read_only_directory`: walk the tree and add every file
not already present in either set. -/
def add_read_only_directory (w : World) (st : ChatState) (abs_path : String) : ChatState :=
  (w.walkFiles abs_path).foldl
    (fun st2 file_path =>
      if file_path ∉ st2.abs_fnames ∧ file_path ∉ st2.abs_read_only_fnames then
        { st2 with abs_read_only_fnames := insert file_path st2.abs_read_only_fnames }
      else st2)
    st

/-- The per-path dispatch of `cmd_read_only` (file / directory / error). -/
def cmd_read_only_path (w : World) (st : ChatState) (path : String) : ChatState :=
  let abs_path := w.absRoot path
  if w.isFile abs_path then add_read_only_file w st abs_path path
  else if w.isDir abs_path then add_read_only_directory w st abs_path
  else st

/-- Translation of `Commands.cmd_read_only` on a single pattern. -/
def cmd_read_only_word (w : World) (st : ChatState) (word : String) : ChatState :=
  (sortStrings (cmd_read_only_matches w word)).foldl (cmd_read_only_path w) st

/-- Translation of `Commands._drop_all_files`: clear the editable set; keep only the
originally read-only files (matched by absolute or relative name) when
any were given, else clear the read-only set too. -/
def drop_all_files (w : World) (st : ChatState) : ChatState :=
  { abs_fnames := ∅
    abs_read_only_fnames :=
      if st.original_read_only_fnames ≠ ∅ then
        st.abs_read_only_fnames.filter
          (fun f =>
            f ∈ st.original_read_only_fnames ∨ w.relOf f ∈ st.original_read_only_fnames)
      else ∅
    original_read_only_fnames := st.original_read_only_fnames }

/-- The removal loop at the end of `cmd_drop` for one word: for each
matched name, resolve it against the root and remove it from the
editable set when present. -/
def dropMatched (w : World) (e : Finset String) (l : List String) : Finset String :=
  l.foldl
    (fun e2 m =>
      if w.absRoot m ∈ e2 then e2.erase (w.absRoot m) else e2)
    e

/-- One word of the non-empty branch of `Commands.cmd_drop`: remove
read-only files matched by substring or `samefile`, then remove editable
files whose absolute path contains the word (a glob word goes through
`glob_filtered_to_repo`; an unmatched word falls back to itself). -/
def cmd_drop_word (w : World) (st : ChatState) (word : String) : ChatState :=
  let expanded_word := word
  let ro_matched :=
    st.abs_read_only_fnames.filter
      (fun f => pyInStr expanded_word f ∨ w.sameFile (w.absPath expanded_word) f)
  let st1 := { st with abs_read_only_fnames := st.abs_read_only_fnames \ ro_matched }
  let matched_files :=
    if hasGlobChar expanded_word then w.globRepo expanded_word
    else
      ((st1.abs_fnames.filter (fun f => pyInStr expanded_word f)).sort (· ≤ ·)).map w.relOf
  let matched_files2 := if matched_files = [] then [expanded_word] else matched_files
  { st1 with abs_fnames := dropMatched w st1.abs_fnames matched_files2 }

/-- Translation of `Commands.cmd_drop` on a word list; an empty list models blank
arguments (`cmd_drop("")`), which drops everything. -/
def cmd_drop_words (w : World) (st : ChatState) (words : List String) : ChatState :=
  if words = [] then drop_all_files w st else words.foldl (cmd_drop_word w) st

/-- Translation of `Commands._run_new_coder`: run a fresh editing session, then drop
every in-chat file not in `exclude_from_drop`.
Modelled from the spec: `Coder.create` + `run` (base_coder.py, not under
src/) is a fresh editing session whose effect on the file sets is to add
the set `added` of absolute file names, and
`coder.get_inchat_relative_files()` returns the relative names of the
editable in-chat files. `cmd_drop(" ".join(files2drop))` re-parses to
the same words because chat file names contain no spaces or quotes. -/
def run_new_coder (w : World) (st : ChatState) (added : Finset String)
    (exclude_from_drop : List String) : ChatState :=
  let st1 := { st with abs_fnames := st.abs_fnames ∪ added }
  let files2drop :=
    ((st1.abs_fnames.image w.relOf).filter (fun r => r ∉ exclude_from_drop)).sort (· ≤ ·)
  cmd_drop_words w st1 files2drop

/-- The step loop of `cmd_code_from_plan` starting at step `i` with `n`
steps left: one fresh editing session per step with the step's prompt,
excluding only the plan file's base name from the drop. `sessions i` is
the set of files the step-`i` session adds. Returns the prompts issued
in order and the final state. -/
def code_from_plan_go (w : World) (sessions : Nat → Finset String) (plan_path : String) :
    Nat → Nat → ChatState → List String × ChatState
  | _, 0, st => ([], st)
  | i, n + 1, st =>
      let prompt := get_step_prompt i plan_path
      let st1 := run_new_coder w st (sessions i) [pathName plan_path]
      let rest := code_from_plan_go w sessions plan_path (i + 1) n st1
      (prompt :: rest.1, rest.2)

/-- The exception-free main loop of `cmd_code_from_plan`
(`for i in range(1, step_count + 1)`). -/
def cmd_code_from_plan_steps (w : World) (sessions : Nat → Finset String)
    (plan_path : String) (step_count : Nat) (st : ChatState) : List String × ChatState :=
  code_from_plan_go w sessions plan_path 1 step_count st

/-- One line of a saved session file. -/
inductive SessionCmd
  | drop
  | add (arg : String)
  | readOnly (arg : String)
  deriving DecidableEq, Repr

/-- Translation of `Commands.cmd_save`: a `/drop` line, one `/add` line per editable
file (relative name, sorted), and one `/read-only` line per read-only
file (relative name when under the root, else absolute, sorted). -/
def cmd_save (w : World) (st : ChatState) : List SessionCmd :=
  SessionCmd.drop ::
    ((st.abs_fnames.sort (· ≤ ·)).map (fun f => SessionCmd.add (w.relOf f))
      ++ (st.abs_read_only_fnames.sort (· ≤ ·)).map
          (fun f =>
            if w.underRoot f then SessionCmd.readOnly (w.relOf f)
            else SessionCmd.readOnly f))

/-- Dispatch of one replayed line (`Commands.run` on a saved command). -/
def run_session_cmd (w : World) (st : ChatState) : SessionCmd → ChatState
  | SessionCmd.drop => drop_all_files w st
  | SessionCmd.add word => cmd_add_word w st word
  | SessionCmd.readOnly word => cmd_read_only_word w st word

/-- Translation of `Commands.cmd_load`: execute the saved commands in order. -/
def cmd_load (w : World) (st : ChatState) (cmds : List SessionCmd) : ChatState :=
  cmds.foldl (run_session_cmd w) st

/-! ## Auxiliary predicates and concrete instances used by the theorems -/

/-- Whether an embedded call raised (`Except.error`). -/
def exceptRaised {ε α : Type} : Except ε α → Bool
  | Except.error _ => true
  | Except.ok _ => false

/-- A credential that is absent both as a constructor parameter and as an
environment variable (the condition named by the specification). -/
abbrev credentialAbsent (param envVal : Option String) : Prop :=
  param = none ∧ envVal = none

/-- A credential that resolves to a falsy value: absent or empty both as
parameter and as environment variable (what the code actually tests). -/
abbrev credentialEmptyOrAbsent (param envVal : Option String) : Prop :=
  (param = none ∨ param = some "") ∧ (envVal = none ∨ envVal = some "")

/-- An environment where all three Jira variables are set but
`JIRA_EMAIL` is set to the empty string. -/
def jiraEnvEmptyEmail : String → Option String := fun k =>
  if k = "JIRA_SERVER_URL" then some "https://jira.example.com"
  else if k = "JIRA_EMAIL" then some ""
  else if k = "JIRA_API_TOKEN" then some "tok" else none

/-- Conditions under which `cmd_add` on the relative name of `f` takes
the plain existing-file path through the source: the relative name is
not absolute, rejoining it to the root names an existing, readable,
non-ignored regular file inside the root that resolves back to `f`. -/
abbrev GoodEditable (w : World) (f : String) : Prop :=
  ¬ isAbsolute (w.relOf f) ∧
  ¬ (w.hasRepo ∧ w.aiderIgnored (joinPath w.root (w.relOf f))) ∧
  w.fileExists (joinPath w.root (w.relOf f)) ∧
  w.isFile (joinPath w.root (w.relOf f)) ∧
  w.absRoot (joinPath w.root (w.relOf f)) = f ∧
  pyStartsWith w.root f ∧
  ¬ (w.hasRepo ∧ w.gitIgnored (joinPath w.root (w.relOf f))) ∧
  ¬ w.isImage (joinPath w.root (w.relOf f)) ∧
  w.readable f

/-- The word `cmd_save` writes for a read-only file: relative inside the
root, absolute outside. -/
def readOnlyWord (w : World) (f : String) : String :=
  if w.underRoot f then w.relOf f else f

/-- Conditions under which `cmd_read_only` on the saved word of `f`
globs to exactly `f` and adds it as a plain file. -/
abbrev GoodReadOnly (w : World) (f : String) : Prop :=
  (if w.underRoot f then
      w.globRoot (w.relOf f) = [f] ∧ ¬ isAbsolute (w.relOf f)
    else w.globAbs f = [f] ∧ isAbsolute f) ∧
  w.absRoot f = f ∧
  w.isFile f ∧
  ¬ w.isImage f

/-- A small concrete world over root `/r` with three regular files, used
to instantiate theorems with hypotheses. -/
def testWorld : World where
  root := "/r"
  fileExists := fun p => ["/r/a", "/r/b", "/r/plan.md"].contains p
  isFile := fun p => ["/r/a", "/r/b", "/r/plan.md"].contains p
  isDir := fun _ => false
  aiderIgnored := fun _ => false
  gitIgnored := fun _ => false
  pathInRepo := fun _ => true
  readable := fun _ => true
  isImage := fun _ => false
  supportsVision := true
  hasRepo := true
  relOf := fun f => ⟨f.data.drop 3⟩
  absRoot := fun p => if isAbsolute p then p else joinPath "/r" p
  globRepo := fun _ => []
  globAbs := fun p => [p]
  globRoot := fun word => [joinPath "/r" word]
  confirmCreate := fun _ => false
  sameFile := fun _ _ => false
  absPath := fun p => p
  walkFiles := fun _ => []
  underRoot := fun f => pyStartsWith "/r" f

/-! # Theorems -/

/-- C1: the claim says that after an uncaught exception at step `i` of an
`N`-step plan, the recovery loop runs a fresh session with the prompt for
step `j`, for every `j` from `i` to `N`. The code instead builds every
retry prompt from `i`, the failed step: with `i = 1`, `N = 2` both retry
sessions receive the step-1 prompt, and the step-1 prompt differs from
the step-2 prompt. -/
theorem code_from_plan_retry_reuses_failed_step_prompt :
    code_from_plan_retry_prompts 1 2 "plan.md" =
      [get_step_prompt 1 "plan.md", get_step_prompt 1 "plan.md"] ∧
    get_step_prompt 1 "plan.md" ≠ get_step_prompt 2 "plan.md" :=
  ⟨rfl, by decide⟩

/-- C6: every argument whose stripped, lower-cased form is not one of
`low`, `medium`, `high` (including the empty string) makes
`cmd_clean_code` proceed with intensity `medium`, and it warns exactly
when the stripped argument is non-empty. -/
theorem cmd_clean_code_invalid_intensity_defaults_to_medium (args : String)
    (h : pyLower (pyStrip args) ≠ "low" ∧ pyLower (pyStrip args) ≠ "medium" ∧
      pyLower (pyStrip args) ≠ "high") :
    (cmd_clean_code_intensity args).1 = "medium" ∧
    ((cmd_clean_code_intensity args).2 = true ↔ pyStrip args ≠ "") := by
  obtain ⟨h1, h2, h3⟩ := h
  unfold cmd_clean_code_intensity
  by_cases hs : pyStrip args = ""
  · simp [hs]
  · simp [hs, h1, h2, h3]

/-- Witness for C6 at the concrete invalid argument `"  EXTREME "`. -/
theorem cmd_clean_code_invalid_intensity_witness :
    (cmd_clean_code_intensity "  EXTREME ").1 = "medium" ∧
    ((cmd_clean_code_intensity "  EXTREME ").2 = true ↔ pyStrip "  EXTREME " ≠ "") :=
  cmd_clean_code_invalid_intensity_defaults_to_medium "  EXTREME " (by decide)

/-- C2: whenever the step-count response does not coerce to an integer,
or coerces to an integer ≤ 0, `identify_affected_files` warns and falls
back to the single whole-plan file-discovery request, returning that set
of relative paths instead of a per-step mapping. -/
theorem identify_affected_files_fallback (ctx : String → Finset String)
    (resp plan : String)
    (h : pyInt resp = none ∨ ∃ n : Int, pyInt resp = some n ∧ n ≤ 0) :
    identify_affected_files ctx resp plan =
      (AffectedFiles.wholePlan (ctx (fallback_files_message plan)), true) := by
  unfold identify_affected_files
  rcases h with h | ⟨n, hn, hle⟩
  · rw [h]
  · rw [hn]
    simp [hle]

/-- Witness for C2 at the unparsable response `"several"`. -/
theorem identify_affected_files_fallback_witness :
    identify_affected_files (fun _ => (∅ : Finset String)) "several" "p" =
      (AffectedFiles.wholePlan (∅ : Finset String), true) :=
  identify_affected_files_fallback (fun _ => (∅ : Finset String)) "several" "p"
    (Or.inl (by decide))

/-- The per-step dictionary loop produces one entry per step index. -/
theorem steps_dict_eq_map (ctx : String → Finset String) (plan : String) :
    ∀ n : Nat, steps_dict ctx plan n =
      (List.range' 1 n).map (fun i => ("Step " ++ toString i, files_in_step ctx plan i))
  | 0 => rfl
  | n + 1 => by
      rw [steps_dict, steps_dict_eq_map ctx plan n, List.range'_1_concat, List.map_append]
      simp [Nat.add_comm]

/-- C4: when the step-count response parses to a positive integer `n`,
`identify_affected_files` returns (without warning) a per-step dictionary
whose entries, in order, are keyed `"Step 1"` to `"Step n"` and hold the
relative paths collected by that step's own file-discovery session. -/
theorem identify_affected_files_per_step (ctx : String → Finset String)
    (resp plan : String) (n : Int) (h : pyInt resp = some n) (hpos : 0 < n) :
    identify_affected_files ctx resp plan =
      (AffectedFiles.perStep
        ((List.range' 1 n.toNat).map
          (fun i => ("Step " ++ toString i, files_in_step ctx plan i))),
        false) ∧
    (steps_dict ctx plan n.toNat).length = n.toNat := by
  constructor
  · unfold identify_affected_files
    rw [h]
    simp [not_le.mpr hpos, steps_dict_eq_map]
  · rw [steps_dict_eq_map]
    simp

/-- Witness for C4 at the response `"3"`. -/
theorem identify_affected_files_per_step_witness :
    identify_affected_files (fun _ => (∅ : Finset String)) "3" "p" =
      (AffectedFiles.perStep
        ((List.range' 1 (3 : Int).toNat).map
          (fun i => ("Step " ++ toString i, files_in_step (fun _ => (∅ : Finset String)) "p" i))),
        false) ∧
    (steps_dict (fun _ => (∅ : Finset String)) "p" (3 : Int).toNat).length = (3 : Int).toNat :=
  identify_affected_files_per_step (fun _ => (∅ : Finset String)) "3" "p" 3
    (by decide) (by decide)

/-- C9: `GitRepo.commit` leaves `GIT_COMMITTER_NAME` and
`GIT_AUTHOR_NAME` with their pre-call values on every path: early
return, successful commit, caught git error, and uncaught exception. -/
theorem git_repo_commit_restores_env (ac aa ae : Bool) (cn : String)
    (out : CommitOutcome) (env : EnvMap) :
    gitRepoCommitEnv ac aa ae cn out env "GIT_COMMITTER_NAME" = env "GIT_COMMITTER_NAME" ∧
    gitRepoCommitEnv ac aa ae cn out env "GIT_AUTHOR_NAME" = env "GIT_AUTHOR_NAME" := by
  have hk1 : ("GIT_COMMITTER_NAME" : String) ≠ "GIT_AUTHOR_NAME" := by decide
  have hk2 : ("GIT_AUTHOR_NAME" : String) ≠ "GIT_COMMITTER_NAME" := by decide
  cases out <;>
    first
      | exact ⟨rfl, rfl⟩
      | · constructor <;>
          · simp only [gitRepoCommitEnv]
            by_cases hac : ac = true <;>
              by_cases haa : (ae && aa) = true <;>
                rcases henv1 : env "GIT_COMMITTER_NAME" with _ | v1 <;>
                  rcases henv2 : env "GIT_AUTHOR_NAME" with _ | v2 <;>
                    simp [hac, haa, henv1, henv2, setEnv, delEnv, hk1, hk2]

/-- An optional string is falsy exactly when it is absent or empty. -/
theorem pyTruthy_eq_false_iff (o : Option String) :
    pyTruthy o = false ↔ (o = none ∨ o = some "") := by
  cases o with
  | none => simp [pyTruthy]
  | some s => simp [pyTruthy]

/-- Resolution `a or b` is truthy exactly when one of the operands is. -/
theorem pyTruthy_pyOr (a b : Option String) :
    pyTruthy (pyOr a b) = (pyTruthy a || pyTruthy b) := by
  unfold pyOr
  by_cases h : pyTruthy a = true <;> simp [h]

/-- An empty-or-absent credential is one whose parameter-or-environment
resolution is falsy. -/
theorem credentialEmptyOrAbsent_iff (p e : Option String) :
    credentialEmptyOrAbsent p e ↔ pyTruthy (pyOr p e) = false := by
  rw [pyTruthy_pyOr, Bool.or_eq_false_iff]
  unfold credentialEmptyOrAbsent
  rw [pyTruthy_eq_false_iff, pyTruthy_eq_false_iff]

/-- Counterexample for C7: with no constructor parameters and all three
environment variables present but `JIRA_EMAIL` set to the empty string,
`Jira.__init__` raises even though no credential is absent in the
claim's sense. -/
theorem jira_init_rejects_present_but_empty_credential :
    exceptRaised (jiraInit none none none jiraEnvEmptyEmail) = true ∧
    ¬ (credentialAbsent none (jiraEnvEmptyEmail "JIRA_SERVER_URL") ∨
       credentialAbsent none (jiraEnvEmptyEmail "JIRA_EMAIL") ∨
       credentialAbsent none (jiraEnvEmptyEmail "JIRA_API_TOKEN")) := by
  constructor
  · decide
  · decide

/-- C7 (amended): constructing the adapter raises exactly when at least
one credential is absent-or-empty both as a parameter and as its
environment variable; on success the stored email and API token are the
resolved credentials, and every valid-method request carries HTTP basic
auth built from them. -/
theorem jira_init_raises_iff_empty_or_absent
    (ps pe pt : Option String) (env : String → Option String) :
    (exceptRaised (jiraInit ps pe pt env) = true ↔
      (credentialEmptyOrAbsent ps (env "JIRA_SERVER_URL") ∨
       credentialEmptyOrAbsent pe (env "JIRA_EMAIL") ∨
       credentialEmptyOrAbsent pt (env "JIRA_API_TOKEN"))) ∧
    (∀ cfg, jiraInit ps pe pt env = Except.ok cfg →
      cfg.email = (pyOr pe (env "JIRA_EMAIL")).getD "" ∧
      cfg.api_token = (pyOr pt (env "JIRA_API_TOKEN")).getD "" ∧
      ∀ method request_url : String, method ∈ jiraValidMethods →
        jiraMakeRequest cfg method request_url =
          Except.ok
            { method := method
              url := cfg.v2_endpoint ++ request_url
              auth := (cfg.email, cfg.api_token) }) := by
  have e1 := credentialEmptyOrAbsent_iff ps (env "JIRA_SERVER_URL")
  have e2 := credentialEmptyOrAbsent_iff pe (env "JIRA_EMAIL")
  have e3 := credentialEmptyOrAbsent_iff pt (env "JIRA_API_TOKEN")
  constructor
  · unfold jiraInit
    by_cases h1 : pyTruthy (pyOr ps (env "JIRA_SERVER_URL")) = true <;>
      by_cases h2 : pyTruthy (pyOr pe (env "JIRA_EMAIL")) = true <;>
        by_cases h3 : pyTruthy (pyOr pt (env "JIRA_API_TOKEN")) = true <;>
          simp [h1, h2, h3, exceptRaised, e1, e2, e3]
  · intro cfg hcfg
    unfold jiraInit at hcfg
    by_cases hC : pyTruthy (pyOr ps (env "JIRA_SERVER_URL")) = true ∧
        pyTruthy (pyOr pe (env "JIRA_EMAIL")) = true ∧
        pyTruthy (pyOr pt (env "JIRA_API_TOKEN")) = true
    · rw [if_pos hC] at hcfg
      injection hcfg with hcfg
      subst hcfg
      refine ⟨rfl, rfl, ?_⟩
      intro m u hm
      unfold jiraMakeRequest
      rw [if_pos hm]
    · rw [if_neg hC] at hcfg
      exact absurd hcfg (by simp)

/-- Witness for C7 at a fully configured adapter issuing a `GET`. -/
theorem jira_basic_auth_witness :
    jiraMakeRequest
        { base_url := "https://j"
          email := "e@x"
          api_token := "t"
          v2_endpoint := ("https://j" ++ "/rest/api") ++ "/2" }
        "GET" "/issue/DEV-1" =
      Except.ok
        { method := "GET"
          url := (("https://j" ++ "/rest/api") ++ "/2") ++ "/issue/DEV-1"
          auth := ("e@x", "t") } :=
  ((jira_init_raises_iff_empty_or_absent (some "https://j") (some "e@x") (some "t")
        (fun _ => none)).2 _ rfl).2.2 "GET" "/issue/DEV-1" (by decide)

/-- Inserting a step permutes consing it. -/
theorem insertStep_perm (s : PlanStep) : ∀ l, List.Perm (insertStep s l) (s :: l) := by
  intro l
  induction l with
  | nil => simp [insertStep]
  | cons t ts ih =>
      unfold insertStep
      by_cases h : t.index < s.index
      · rw [if_pos h]
        exact (ih.cons t).trans (List.Perm.swap s t ts)
      · rw [if_neg h]

/-- The sort of `parse_plan` permutes its input. -/
theorem sortSteps_perm : ∀ l, List.Perm (sortSteps l) l := by
  intro l
  induction l with
  | nil => simp [sortSteps]
  | cons s ts ih =>
      rw [sortSteps]
      exact (insertStep_perm s (sortSteps ts)).trans (ih.cons s)

/-- Insertion preserves ascending index order. -/
theorem insertStep_sorted (s : PlanStep) (l : List PlanStep)
    (h : List.Pairwise (fun a b => a.index ≤ b.index) l) :
    List.Pairwise (fun a b => a.index ≤ b.index) (insertStep s l) := by
  induction l with
  | nil => simp [insertStep]
  | cons t ts ih =>
      rcases List.pairwise_cons.mp h with ⟨ht, hts⟩
      unfold insertStep
      by_cases hlt : t.index < s.index
      · rw [if_pos hlt]
        refine List.pairwise_cons.mpr ⟨?_, ih hts⟩
        intro x hx
        rcases List.mem_cons.mp ((insertStep_perm s ts).mem_iff.mp hx) with rfl | hx2
        · exact Nat.le_of_lt hlt
        · exact ht x hx2
      · rw [if_neg hlt]
        have hst : s.index ≤ t.index := Nat.le_of_not_lt hlt
        refine List.pairwise_cons.mpr ⟨?_, h⟩
        intro x hx
        rcases List.mem_cons.mp hx with rfl | hx2
        · exact hst
        · exact hst.trans (ht x hx2)

/-- The sort of `parse_plan` yields ascending index order. -/
theorem sortSteps_sorted :
    ∀ l, List.Pairwise (fun a b => a.index ≤ b.index) (sortSteps l) := by
  intro l
  induction l with
  | nil => simp [sortSteps]
  | cons s ts ih =>
      rw [sortSteps]
      exact insertStep_sorted s (sortSteps ts) ih

/-- C10: `parse_plan` returns exactly the steps matched by the
`## Step N:` pattern (as a permutation of the matches in text order),
sorted in ascending order of parsed step number regardless of the order
of the headings, and when no heading matches `execute_plan` reports the
error and issues no LLM prompt. -/
theorem parse_plan_sorted_and_empty_error (content : String) (confirm : String → Bool) :
    List.Pairwise (fun a b => a.index ≤ b.index) (parse_plan content) ∧
    List.Perm (parse_plan content) (raw_plan_steps content) ∧
    (parse_plan content = [] →
      execute_plan content confirm =
        { errorMsg := some "No steps found in the plan file.", prompts := [] }) := by
  refine ⟨sortSteps_sorted _, sortSteps_perm _, ?_⟩
  intro h
  simp [execute_plan, h]

/-- Witness for C10 at a plan file without step headings. -/
theorem parse_plan_no_steps_witness :
    execute_plan "just text" (fun _ => true) =
      { errorMsg := some "No steps found in the plan file.", prompts := [] } :=
  (parse_plan_sorted_and_empty_error "just text" (fun _ => true)).2.2 (by rfl)

/-- One matched-file pass of `cmd_add` preserves disjointness of the
editable and read-only sets. -/
theorem cmd_add_process_disjoint (w : World) (st : ChatState) (m : String)
    (h : Disjoint st.abs_fnames st.abs_read_only_fnames) :
    Disjoint (cmd_add_process w st m).abs_fnames
      (cmd_add_process w st m).abs_read_only_fnames := by
  simp only [cmd_add_process]
  split_ifs with h1 h2 h3 h4 h5 h6 h7 <;>
    first
      | exact h
      | exact Finset.disjoint_insert_left.mpr
          ⟨Finset.not_mem_erase _ _, h.mono_right (Finset.erase_subset _ _)⟩
      | exact Finset.disjoint_insert_left.mpr ⟨h4, h⟩

/-- Folding the matched-file pass preserves disjointness. -/
theorem cmd_add_foldl_disjoint (w : World) :
    ∀ (l : List String) (st : ChatState),
      Disjoint st.abs_fnames st.abs_read_only_fnames →
      Disjoint (l.foldl (cmd_add_process w) st).abs_fnames
        (l.foldl (cmd_add_process w) st).abs_read_only_fnames
  | [], _, h => h
  | m :: ms, st, h =>
      cmd_add_foldl_disjoint w ms (cmd_add_process w st m) (cmd_add_process_disjoint w st m h)

/-- C8: the editable and read-only sets stay disjoint across `cmd_add`;
adding a path already present as read-only and tracked in the repo moves
it from the read-only set to the editable set; adding a path already in
the editable set changes neither set. -/
theorem cmd_add_preserves_disjoint_file_sets :
    (∀ (w : World) (st : ChatState) (word : String),
        Disjoint st.abs_fnames st.abs_read_only_fnames →
        Disjoint (cmd_add_word w st word).abs_fnames
          (cmd_add_word w st word).abs_read_only_fnames) ∧
    (∀ (w : World) (st : ChatState) (m : String),
        w.absRoot m ∈ st.abs_read_only_fnames →
        w.absRoot m ∉ st.abs_fnames →
        pyStartsWith w.root (w.absRoot m) = true →
        w.hasRepo = true → w.pathInRepo m = true → w.gitIgnored m = false →
        cmd_add_process w st m =
          { st with
            abs_fnames := insert (w.absRoot m) st.abs_fnames
            abs_read_only_fnames := st.abs_read_only_fnames.erase (w.absRoot m) }) ∧
    (∀ (w : World) (st : ChatState) (m : String),
        w.absRoot m ∈ st.abs_fnames → cmd_add_process w st m = st) := by
  refine ⟨?_, ?_, ?_⟩
  · intro w st word h
    exact cmd_add_foldl_disjoint w _ st h
  · intro w st m hR hE hroot hrepo hin hgit
    simp [cmd_add_process, hroot, hrepo, hin, hgit, hR, hE]
  · intro w st m hE
    simp only [cmd_add_process]
    by_cases h1 : ¬ pyStartsWith w.root (w.absRoot m) ∧ ¬ w.isImage m
    · rw [if_pos h1]
    · rw [if_neg h1]
      by_cases h2 : w.hasRepo ∧ w.gitIgnored m
      · rw [if_pos h2]
      · rw [if_neg h2, if_pos hE]

/-- Witness for C8: promoting the read-only file `/r/b` of `testWorld`
to editable. -/
theorem cmd_add_read_only_promotion_witness :
    cmd_add_process testWorld ⟨∅, {"/r/b"}, ∅⟩ "/r/b" =
      { (⟨∅, {"/r/b"}, ∅⟩ : ChatState) with
        abs_fnames := insert (testWorld.absRoot "/r/b") (∅ : Finset String)
        abs_read_only_fnames := ({"/r/b"} : Finset String).erase (testWorld.absRoot "/r/b") } :=
  cmd_add_preserves_disjoint_file_sets.2.1 testWorld ⟨∅, {"/r/b"}, ∅⟩ "/r/b"
    (by decide) (by decide) (by decide) (by decide) (by decide) (by decide)

/-- The removal loop only removes files. -/
theorem dropMatched_subset (w : World) :
    ∀ (l : List String) (e : Finset String), dropMatched w e l ⊆ e
  | [], _ => Finset.Subset.refl _
  | m :: ms, e => by
      rw [dropMatched]
      by_cases hm : w.absRoot m ∈ e
      · rw [List.foldl_cons, if_pos hm]
        exact (dropMatched_subset w ms (e.erase (w.absRoot m))).trans
          (Finset.erase_subset _ _)
      · rw [List.foldl_cons, if_neg hm]
        exact dropMatched_subset w ms e

/-- A file whose resolved name appears among the matched names is gone
after the removal loop. -/
theorem dropMatched_not_mem (w : World) (f : String) :
    ∀ (l : List String) (e : Finset String),
      (∃ m ∈ l, w.absRoot m = f) → f ∉ dropMatched w e l
  | [], _, hex => absurd hex (by simp)
  | m :: ms, e, hex => by
      rw [dropMatched, List.foldl_cons]
      rcases hex with ⟨m1, hm1, habs⟩
      rcases List.mem_cons.mp hm1 with rfl | hms
      · rw [habs]
        by_cases hf : f ∈ e
        · rw [if_pos hf]
          intro hmem
          exact Finset.not_mem_erase f e
            (dropMatched_subset w ms (e.erase f) hmem)
        · rw [if_neg hf]
          intro hmem
          exact hf (dropMatched_subset w ms e hmem)
      · by_cases hm : w.absRoot m ∈ e
        · rw [if_pos hm]
          exact dropMatched_not_mem w f ms _ ⟨m1, hms, habs⟩
        · rw [if_neg hm]
          exact dropMatched_not_mem w f ms e ⟨m1, hms, habs⟩

/-- A file no matched name resolves to survives the removal loop. -/
theorem dropMatched_keeps (w : World) (f : String) :
    ∀ (l : List String) (e : Finset String),
      f ∈ e → (∀ m ∈ l, w.absRoot m ≠ f) → f ∈ dropMatched w e l
  | [], _, hf, _ => hf
  | m :: ms, e, hf, hne => by
      rw [dropMatched, List.foldl_cons]
      by_cases hm : w.absRoot m ∈ e
      · rw [if_pos hm]
        refine dropMatched_keeps w f ms _ ?_ (fun m2 hm2 => hne m2 (List.mem_cons_of_mem m hm2))
        exact Finset.mem_erase.mpr ⟨fun hfe => hne m (List.mem_cons_self m ms) (hfe ▸ rfl), hf⟩
      · rw [if_neg hm]
        exact dropMatched_keeps w f ms e hf (fun m2 hm2 => hne m2 (List.mem_cons_of_mem m hm2))

/-- One word of `cmd_drop` never adds editable files. -/
theorem cmd_drop_word_fnames_subset (w : World) (st : ChatState) (word : String) :
    (cmd_drop_word w st word).abs_fnames ⊆ st.abs_fnames := by
  simp only [cmd_drop_word]
  exact dropMatched_subset w _ _

/-- Folding `cmd_drop` over words never adds editable files. -/
theorem cmd_drop_foldl_fnames_subset (w : World) :
    ∀ (ws : List String) (st : ChatState),
      (ws.foldl (cmd_drop_word w) st).abs_fnames ⊆ st.abs_fnames
  | [], _ => Finset.Subset.refl _
  | w0 :: ws, st =>
      (cmd_drop_foldl_fnames_subset w ws (cmd_drop_word w st w0)).trans
        (cmd_drop_word_fnames_subset w st w0)

/-- Dropping a file's own relative name removes it from the editable
set, provided its relative name occurs in its absolute path, resolves
back to it, and contains no glob character. -/
theorem cmd_drop_word_removes (w : World) (st : ChatState) (f : String)
    (hneedle : pyInStr (w.relOf f) f = true)
    (habs : w.absRoot (w.relOf f) = f)
    (hglob : hasGlobChar (w.relOf f) = false) :
    f ∉ (cmd_drop_word w st (w.relOf f)).abs_fnames := by
  simp only [cmd_drop_word, hglob, Bool.false_eq_true, if_false]
  by_cases hf : f ∈ st.abs_fnames
  · have hmem : w.relOf f ∈
        ((st.abs_fnames.filter (fun g => pyInStr (w.relOf f) g)).sort (· ≤ ·)).map w.relOf :=
      List.mem_map.mpr
        ⟨f, (Finset.mem_sort _).mpr (Finset.mem_filter.mpr ⟨hf, hneedle⟩), rfl⟩
    rw [if_neg (List.ne_nil_of_mem hmem)]
    exact dropMatched_not_mem w f _ _ ⟨w.relOf f, hmem, habs⟩
  · intro hcontra
    exact hf (dropMatched_subset w _ _ hcontra)

/-- Folding `cmd_drop` over a word list that contains a file's relative
name removes that file. -/
theorem cmd_drop_foldl_removes (w : World) (f : String)
    (hneedle : pyInStr (w.relOf f) f = true)
    (habs : w.absRoot (w.relOf f) = f)
    (hglob : hasGlobChar (w.relOf f) = false) :
    ∀ (ws : List String) (st : ChatState), w.relOf f ∈ ws →
      f ∉ (ws.foldl (cmd_drop_word w) st).abs_fnames
  | [], _, hmem => absurd hmem (by simp)
  | w0 :: ws, st, hmem => by
      rw [List.foldl_cons]
      rcases List.mem_cons.mp hmem with heq | hmem2
      · intro hcontra
        exact (heq ▸ cmd_drop_word_removes w st f hneedle habs hglob)
          (cmd_drop_foldl_fnames_subset w ws _ hcontra)
      · exact cmd_drop_foldl_removes w f hneedle habs hglob ws _ hmem2

/-- One `cmd_drop` word keeps a file no matched name resolves to. -/
theorem cmd_drop_word_keeps (w : World) (st : ChatState) (p w0 : String)
    (hp : p ∈ st.abs_fnames)
    (hrel : ∀ g ∈ st.abs_fnames, w.absRoot (w.relOf g) = g)
    (hni : pyInStr w0 p = false)
    (habsw : w.absRoot w0 ≠ p)
    (hglobw : hasGlobChar w0 = false) :
    p ∈ (cmd_drop_word w st w0).abs_fnames := by
  simp only [cmd_drop_word, hglobw, Bool.false_eq_true, if_false]
  by_cases hemp :
      ((st.abs_fnames.filter (fun g => pyInStr w0 g)).sort (· ≤ ·)).map w.relOf = []
  · rw [if_pos hemp]
    exact dropMatched_keeps w p _ _ hp (by simpa using habsw)
  · rw [if_neg hemp]
    refine dropMatched_keeps w p _ _ hp ?_
    intro m hm
    rcases List.mem_map.mp hm with ⟨g, hg, rfl⟩
    have hg2 := Finset.mem_filter.mp ((Finset.mem_sort _).mp hg)
    rw [hrel g hg2.1]
    intro hgp
    rw [hgp] at hg2
    rw [hg2.2] at hni
    exact Bool.true_eq_false.mp hni

/-- Folding `cmd_drop` keeps a file untouched by every word. -/
theorem cmd_drop_foldl_keeps (w : World) (p : String) (E1 : Finset String)
    (hrel : ∀ g ∈ E1, w.absRoot (w.relOf g) = g) :
    ∀ (ws : List String) (st : ChatState),
      st.abs_fnames ⊆ E1 → p ∈ st.abs_fnames →
      (∀ w0 ∈ ws, pyInStr w0 p = false ∧ w.absRoot w0 ≠ p ∧ hasGlobChar w0 = false) →
      p ∈ (ws.foldl (cmd_drop_word w) st).abs_fnames
  | [], _, _, hp, _ => hp
  | w0 :: ws, st, hsub, hp, hws => by
      rw [List.foldl_cons]
      obtain ⟨h1, h2, h3⟩ := hws w0 (List.mem_cons_self w0 ws)
      refine cmd_drop_foldl_keeps w p E1 hrel ws _
        ((cmd_drop_word_fnames_subset w st w0).trans hsub)
        (cmd_drop_word_keeps w st p w0 hp (fun g hg => hrel g (hsub hg)) h1 h2 h3)
        (fun w1 hw1 => hws w1 (List.mem_cons_of_mem w0 hw1))

/-- The step loop issues the prompts for consecutive step numbers. -/
theorem code_from_plan_go_prompts (w : World) (sessions : Nat → Finset String)
    (plan_path : String) :
    ∀ (n i : Nat) (st : ChatState),
      (code_from_plan_go w sessions plan_path i n st).1 =
        (List.range' i n).map (fun k => get_step_prompt k plan_path)
  | 0, _, _ => rfl
  | n + 1, i, st => by
      simp only [code_from_plan_go, List.range'_succ, List.map_cons]
      rw [code_from_plan_go_prompts w sessions plan_path n (i + 1)
        (run_new_coder w st (sessions i) [pathName plan_path])]

/-- C3 (amended): the exception-free path of `cmd_code_from_plan` runs
exactly one fresh editing session per step, in step order 1..N, with the
step's prompt; after each session every file the session added whose
relative name is not the plan's base name is no longer in the chat; and
the plan file itself stays in the chat provided at least one in-chat
file escapes the exclusion list (otherwise the drop is invoked with
empty arguments and removes every file, the plan included) and no
dropped name occurs inside the plan's absolute path. -/
theorem cmd_code_from_plan_sessions_and_drops
    (w : World) (sessions : Nat → Finset String) (plan_path : String) (N : Nat)
    (st : ChatState) :
    (cmd_code_from_plan_steps w sessions plan_path N st).1 =
      (List.range' 1 N).map (fun i => get_step_prompt i plan_path) ∧
    (∀ (st2 : ChatState) (added : Finset String) (f : String),
        f ∈ added → w.relOf f ≠ pathName plan_path →
        pyInStr (w.relOf f) f = true → w.absRoot (w.relOf f) = f →
        hasGlobChar (w.relOf f) = false →
        f ∉ (run_new_coder w st2 added [pathName plan_path]).abs_fnames) ∧
    (∀ (st2 : ChatState) (added : Finset String) (p : String),
        p ∈ st2.abs_fnames → w.relOf p = pathName plan_path →
        (∀ g ∈ st2.abs_fnames ∪ added, w.absRoot (w.relOf g) = g) →
        (∀ g ∈ st2.abs_fnames ∪ added, hasGlobChar (w.relOf g) = false) →
        (∀ g ∈ st2.abs_fnames ∪ added,
            w.relOf g ≠ pathName plan_path → pyInStr (w.relOf g) p = false) →
        (∃ g ∈ st2.abs_fnames ∪ added, w.relOf g ≠ pathName plan_path) →
        p ∈ (run_new_coder w st2 added [pathName plan_path]).abs_fnames) := by
  refine ⟨code_from_plan_go_prompts w sessions plan_path N 1 st, ?_, ?_⟩
  · intro st2 added f hf hne hneedle habs hglob
    simp only [run_new_coder]
    have hfE : f ∈ st2.abs_fnames ∪ added := Finset.mem_union.mpr (Or.inr hf)
    have hmem : w.relOf f ∈
        (((st2.abs_fnames ∪ added).image w.relOf).filter
            (fun r => r ∉ [pathName plan_path])).sort (· ≤ ·) := by
      rw [Finset.mem_sort]
      exact Finset.mem_filter.mpr
        ⟨Finset.mem_image.mpr ⟨f, hfE, rfl⟩, by simpa using hne⟩
    rw [cmd_drop_words, if_neg (List.ne_nil_of_mem hmem)]
    exact cmd_drop_foldl_removes w f hneedle habs hglob _ _ hmem
  · intro st2 added p hp hpname hrel hglob hnoclash hex
    simp only [run_new_coder]
    obtain ⟨g, hg, hgne⟩ := hex
    have hmemg : w.relOf g ∈
        (((st2.abs_fnames ∪ added).image w.relOf).filter
            (fun r => r ∉ [pathName plan_path])).sort (· ≤ ·) := by
      rw [Finset.mem_sort]
      exact Finset.mem_filter.mpr
        ⟨Finset.mem_image.mpr ⟨g, hg, rfl⟩, by simpa using hgne⟩
    rw [cmd_drop_words, if_neg (List.ne_nil_of_mem hmemg)]
    refine cmd_drop_foldl_keeps w p (st2.abs_fnames ∪ added) hrel _ _
      (Finset.Subset.refl _) (Finset.mem_union.mpr (Or.inl hp)) ?_
    intro w0 hw0
    rw [Finset.mem_sort] at hw0
    obtain ⟨hw0i, hw0ne⟩ := Finset.mem_filter.mp hw0
    obtain ⟨g2, hg2, rfl⟩ := Finset.mem_image.mp hw0i
    have hg2ne : w.relOf g2 ≠ pathName plan_path := by simpa using hw0ne
    refine ⟨hnoclash g2 hg2 hg2ne, ?_, hglob g2 hg2⟩
    rw [hrel g2 hg2]
    intro hg2p
    exact hg2ne (hg2p ▸ hpname)

/-- Counterexample for C3 as stated: when the plan file is the only
in-chat file and the session adds nothing, `files2drop` is empty, so
`cmd_drop` runs with empty arguments and removes every file — including
the plan file the claim says is kept. -/
theorem run_new_coder_drops_lone_plan_file :
    "/r/plan.md" ∈ (⟨{"/r/plan.md"}, ∅, ∅⟩ : ChatState).abs_fnames ∧
    (run_new_coder testWorld ⟨{"/r/plan.md"}, ∅, ∅⟩ ∅ ["plan.md"]).abs_fnames = ∅ := by
  constructor
  · decide
  · have h2 : testWorld.relOf "/r/plan.md" = "plan.md" := by decide
    simp [run_new_coder, cmd_drop_words, drop_all_files, Finset.image_singleton, h2,
      Finset.filter_singleton, Finset.sort_empty]

/-- Witness for C3: a session during step 1 adds `/r/x` to the chat of
`testWorld`; afterwards `/r/x` has been dropped. -/
theorem run_new_coder_drops_added_witness :
    "/r/x" ∉
      (run_new_coder testWorld ⟨{"/r/plan.md"}, ∅, ∅⟩ {"/r/x"} ["plan.md"]).abs_fnames :=
  (cmd_code_from_plan_sessions_and_drops testWorld (fun _ => {"/r/x"}) "plan.md" 1
      ⟨{"/r/plan.md"}, ∅, ∅⟩).2.1
    ⟨{"/r/plan.md"}, ∅, ∅⟩ {"/r/x"} "/r/x"
    (by decide) (by decide) (by decide) (by decide) (by decide)

/-- Replaying `/add` on the relative name of a good editable file inserts
exactly that file. -/
theorem cmd_add_word_good (w : World) (st : ChatState) (f : String)
    (hG : GoodEditable w f) (hR : f ∉ st.abs_read_only_fnames) :
    cmd_add_word w st (w.relOf f) = { st with abs_fnames := insert f st.abs_fnames } := by
  obtain ⟨h1, h2, h3, h4, h5, h6, h7, h8, h9⟩ := hG
  have hmatches : cmd_add_matches w (w.relOf f) = [joinPath w.root (w.relOf f)] := by
    simp [cmd_add_matches, cmd_add_fname, h1, h2, h3, h4]
  by_cases hf : f ∈ st.abs_fnames
  · simp [cmd_add_word, hmatches, sortStrings, insertSortedStr, cmd_add_process, h5, h6,
      h7, hf, Finset.insert_eq_self.mpr hf]
  · simp [cmd_add_word, hmatches, sortStrings, insertSortedStr, cmd_add_process, h5, h6,
      h7, h8, h9, hf, hR]

/-- Replaying the `/add` lines restores the editable set. -/
theorem cmd_add_fold_phase (w : World) :
    ∀ (l : List String) (st : ChatState),
      (∀ f ∈ l, GoodEditable w f) →
      (∀ f ∈ l, f ∉ st.abs_read_only_fnames) →
      l.foldl (fun s f => cmd_add_word w s (w.relOf f)) st =
        { st with abs_fnames := st.abs_fnames ∪ l.toFinset }
  | [], st, _, _ => by simp
  | f :: fs, st, hG, hR => by
      rw [List.foldl_cons,
        cmd_add_word_good w st f (hG f (List.mem_cons_self f fs))
          (hR f (List.mem_cons_self f fs)),
        cmd_add_fold_phase w fs { st with abs_fnames := insert f st.abs_fnames }
          (fun g hg => hG g (List.mem_cons_of_mem f hg))
          (fun g hg => hR g (List.mem_cons_of_mem f hg))]
      simp [Finset.insert_union, Finset.union_insert]

/-- Replaying `/read-only` on the saved word of a good read-only file
inserts exactly that file. -/
theorem cmd_read_only_word_good (w : World) (st : ChatState) (f : String)
    (hG : GoodReadOnly w f) (hE : f ∉ st.abs_fnames) :
    cmd_read_only_word w st (readOnlyWord w f) =
      { st with abs_read_only_fnames := insert f st.abs_read_only_fnames } := by
  obtain ⟨hglob, habs, hfile, himg⟩ := hG
  have htail :
      cmd_read_only_path w st f =
        { st with abs_read_only_fnames := insert f st.abs_read_only_fnames } := by
    simp only [cmd_read_only_path, habs]
    rw [if_pos hfile]
    simp only [add_read_only_file]
    rw [if_neg (fun hc => himg hc.1)]
    by_cases hfr : f ∈ st.abs_read_only_fnames
    · rw [if_pos hfr, Finset.insert_eq_self.mpr hfr]
    · rw [if_neg hfr, if_neg hE]
  by_cases hu : w.underRoot f = true
  · rw [if_pos hu] at hglob
    simp only [cmd_read_only_word, cmd_read_only_matches, readOnlyWord]
    rw [if_pos hu, if_neg hglob.2, hglob.1]
    exact htail
  · rw [if_neg hu] at hglob
    simp only [cmd_read_only_word, cmd_read_only_matches, readOnlyWord]
    rw [if_neg hu, if_pos hglob.2, hglob.1]
    exact htail

/-- Replaying the `/read-only` lines restores the read-only set. -/
theorem cmd_read_only_fold_phase (w : World) :
    ∀ (l : List String) (st : ChatState),
      (∀ f ∈ l, GoodReadOnly w f) →
      (∀ f ∈ l, f ∉ st.abs_fnames) →
      l.foldl (fun s f => cmd_read_only_word w s (readOnlyWord w f)) st =
        { st with abs_read_only_fnames := st.abs_read_only_fnames ∪ l.toFinset }
  | [], st, _, _ => by simp
  | f :: fs, st, hG, hE => by
      rw [List.foldl_cons,
        cmd_read_only_word_good w st f (hG f (List.mem_cons_self f fs))
          (hE f (List.mem_cons_self f fs)),
        cmd_read_only_fold_phase w fs
          { st with abs_read_only_fnames := insert f st.abs_read_only_fnames }
          (fun g hg => hG g (List.mem_cons_of_mem f hg))
          (fun g hg => hE g (List.mem_cons_of_mem f hg))]
      simp [Finset.insert_union, Finset.union_insert]

/-- C5: replaying a session file written by `cmd_save` through
`cmd_load` reconstructs exactly the editable and read-only file sets the
session had when saved, whenever the saved files still resolve to
themselves (they exist as non-ignored readable regular files, and the
saved relative or absolute names glob back to them). -/
theorem cmd_save_load_round_trip (w : World) (st : ChatState)
    (hdisj : Disjoint st.abs_fnames st.abs_read_only_fnames)
    (hE : ∀ f ∈ st.abs_fnames, GoodEditable w f)
    (hR : ∀ f ∈ st.abs_read_only_fnames, GoodReadOnly w f) :
    cmd_load w st (cmd_save w st) = st := by
  have hfun : (fun f => if w.underRoot f then SessionCmd.readOnly (w.relOf f)
      else SessionCmd.readOnly f) = fun f => SessionCmd.readOnly (readOnlyWord w f) := by
    funext f
    by_cases h : w.underRoot f = true <;> simp [readOnlyWord, h]
  have hsub : (drop_all_files w st).abs_read_only_fnames ⊆ st.abs_read_only_fnames := by
    simp only [drop_all_files]
    split_ifs
    · exact Finset.filter_subset _ _
    · exact Finset.empty_subset _
  unfold cmd_load cmd_save
  rw [hfun, List.foldl_cons, List.foldl_append, List.foldl_map, List.foldl_map]
  simp only [run_session_cmd]
  rw [cmd_add_fold_phase w (st.abs_fnames.sort (· ≤ ·)) (drop_all_files w st)
      (fun f hf => hE f ((Finset.mem_sort _).mp hf))
      (fun f hf hmem =>
        Finset.disjoint_left.mp hdisj ((Finset.mem_sort _).mp hf) (hsub hmem))]
  have hE1 : (drop_all_files w st).abs_fnames ∪ (st.abs_fnames.sort (· ≤ ·)).toFinset =
      st.abs_fnames := by
    show (∅ : Finset String) ∪ (st.abs_fnames.sort (· ≤ ·)).toFinset = st.abs_fnames
    rw [Finset.empty_union, Finset.sort_toFinset]
  rw [cmd_read_only_fold_phase w (st.abs_read_only_fnames.sort (· ≤ ·))
      { drop_all_files w st with
        abs_fnames := (drop_all_files w st).abs_fnames ∪ (st.abs_fnames.sort (· ≤ ·)).toFinset }
      (fun f hf => hR f ((Finset.mem_sort _).mp hf))
      (fun f hf hmem => by
        rw [hE1] at hmem
        exact Finset.disjoint_right.mp hdisj ((Finset.mem_sort _).mp hf) hmem)]
  have hR1 : (drop_all_files w st).abs_read_only_fnames ∪
      (st.abs_read_only_fnames.sort (· ≤ ·)).toFinset = st.abs_read_only_fnames := by
    rw [Finset.sort_toFinset]
    exact Finset.union_eq_right.mpr hsub
  have hO1 : (drop_all_files w st).original_read_only_fnames =
      st.original_read_only_fnames := rfl
  cases st with
  | mk e r o =>
      simp only at hE1 hR1 hO1 ⊢
      rw [hE1, hR1, hO1]

/-- Witness for C5: the round trip on a session of `testWorld` with one
editable file and one read-only file. -/
theorem cmd_save_load_round_trip_witness :
    cmd_load testWorld ⟨{"/r/a"}, {"/r/b"}, ∅⟩
        (cmd_save testWorld ⟨{"/r/a"}, {"/r/b"}, ∅⟩) =
      (⟨{"/r/a"}, {"/r/b"}, ∅⟩ : ChatState) :=
  cmd_save_load_round_trip testWorld ⟨{"/r/a"}, {"/r/b"}, ∅⟩
    (by decide) (by decide) (by decide)

end Aider
